import Mathlib

/-!
# Verification of the graph library and its lazy Dijkstra traversal

Shallow embedding of the directed weighted graph library (C++ `graph.cpp` /
Kotlin `Graph.kt`) and its lazy single-source shortest-path traversal.

Modelling conventions:
* node identity is the node's name (names are unique within a graph);
* the `double` weights and distances of the source are embedded in an
  arbitrary linearly ordered additive commutative group `W`, with `Option W`
  playing the role of a distance that may be `HUGE_VAL` (`none` = positive
  infinity);
* the unordered containers of the source are embedded as lists; the list
  order stands for the (implementation-defined) scan order of the container;
* exceptions are embedded as explicit error results.
-/

/-- The error kinds of the library (`std::domain_error` / `std::logic_error`
messages in C++, `GraphKeyError` / `GraphEdgeError` in Kotlin). -/
inductive GraphError : Type where
  | DuplicateKey : GraphError
  | UnknownNode : GraphError
  | InvalidWeight : GraphError
  | DuplicateEdge : GraphError
deriving DecidableEq, Repr

/-- `graph_edge`: a directed link with a start node, an end node and a weight.
The C++ stores weak pointers to the endpoint nodes; node identity is the name,
so the embedding stores the endpoint names.  (`end` is a Lean keyword, so the
`end` field of the source is called `endN` here.)  The `double` weights are
embedded in an arbitrary linearly ordered additive group `W`. -/
structure graph_edge (T : Type) (W : Type) where
  start : T
  endN : T
  weight : W
deriving DecidableEq, Repr

/-- `graph_node`: a named node with its adjacency lists `out_edges` and
`in_edges` (unordered sets in the source, embedded as lists). -/
structure graph_node (T : Type) (W : Type) where
  name : T
  out_edges : List (graph_edge T W)
  in_edges : List (graph_edge T W)
deriving DecidableEq, Repr

/-- `graph`: a name-to-node mapping (`std::unordered_map` embedded as an
association list; the list order stands for the map's iteration order). -/
structure graph (T : Type) (W : Type) where
  nodes : List (T × graph_node T W)
deriving DecidableEq, Repr

variable {T W : Type} [DecidableEq T] [LinearOrderedAddCommGroup W]

/-- `nodes.contains(name)`. -/
def graph.containsNode (g : graph T W) (v : T) : Bool :=
  g.nodes.any (fun p => p.1 = v)

/-- `nodes[name]` (lookup). -/
def graph.getNode? (g : graph T W) (v : T) : Option (graph_node T W) :=
  (g.nodes.find? (fun p => p.1 = v)).map (fun p => p.2)

/-- Pointwise update of the node stored under a key. -/
def graph.updateNode (g : graph T W) (v : T) (f : graph_node T W → graph_node T W) :
    graph T W :=
  ⟨g.nodes.map (fun p => if p.1 = v then (p.1, f p.2) else p)⟩

/-- `graph::create_node`: fails with `DuplicateKey` when the name is present,
otherwise inserts a fresh node with empty edge lists.  The result is the graph
after the call, paired with the raised error (if any). -/
def graph.create_node (g : graph T W) (name : T) : graph T W × Option GraphError :=
  if g.containsNode name then (g, some GraphError.DuplicateKey)
  else (⟨g.nodes ++ [(name, ⟨name, [], []⟩)]⟩, none)

/-- `graph::create_link` together with the `graph_edge` constructor it calls:
first the membership check of both endpoints (`UnknownNode`), then the
constructor's weight check (`InvalidWeight`), then the constructor's scan of
the start node's `out_edges` for an edge with the same end (`DuplicateEdge`);
only after all checks succeed is the edge inserted into the start node's
`out_edges` and the end node's `in_edges`.  The result is the graph after the
call, paired with the raised error (if any). -/
def graph.create_link (g : graph T W) (start endName : T) (weight : W) :
    graph T W × Option GraphError :=
  match g.getNode? start, g.getNode? endName with
  | some ns, some _ =>
    if weight ≤ 0 then (g, some GraphError.InvalidWeight)
    else if ns.out_edges.any (fun e => e.endN = endName) then
      (g, some GraphError.DuplicateEdge)
    else
      let edge : graph_edge T W := ⟨start, endName, weight⟩
      let g1 := g.updateNode start
        (fun n => { n with out_edges := n.out_edges ++ [edge] })
      let g2 := g1.updateNode endName
        (fun n => { n with in_edges := n.in_edges ++ [edge] })
      (g2, none)
  | _, _ => (g, some GraphError.UnknownNode)

/-- The strict `<` of the source's `double` distances, with `none` standing
for `HUGE_VAL`: a finite distance is less than infinity, infinity is less
than nothing. -/
def dlt : Option W → Option W → Bool
  | some a, some b => decide (a < b)
  | some _, none => true
  | none, _ => false

/-- The `<=` used by the Kotlin selection loop (`entry.distance <=
(nextEntry?.distance ?: POSITIVE_INFINITY)`); note `∞ <= ∞` is true. -/
def dle : Option W → Option W → Bool
  | some a, some b => decide (a ≤ b)
  | _, none => true
  | none, some _ => false

/-- `dijkstra_iteration_step` (C++) / `PathEntry` (Kotlin): the record yielded
for one node — the node reached, its distance from the source (`none` =
`HUGE_VAL`, the initial value), and the previous node on the path (`none` for
the source). -/
structure dijkstra_iteration_step (T : Type) (W : Type) where
  current : T
  distance : Option W
  previous : Option T
deriving DecidableEq, Repr

/-- One comparison of the C++ selection scan: `if (current == nullptr)
current = e; if (e->distance < current->distance) current = e;` — on a tie the
previously held entry is kept (strict `<`). -/
def pickCpp (acc : Option (dijkstra_iteration_step T W))
    (e : dijkstra_iteration_step T W) : Option (dijkstra_iteration_step T W) :=
  match acc with
  | none => some e
  | some c => if dlt e.distance c.distance then some e else some c

/-- The C++ minimum-selection scan over the working set
(`for (auto itr : working_set) ...` in `dijkstra_traversal_iterator::iter`). -/
def scanMin (working : List T) (store : T → dijkstra_iteration_step T W) :
    Option (dijkstra_iteration_step T W) :=
  working.foldl (fun acc v => pickCpp acc (store v)) none

/-- One comparison of the Kotlin selection scan: `nextEntry = if
(entry.distance <= (nextEntry?.distance ?: POSITIVE_INFINITY)) entry else
nextEntry` — on a tie the new entry replaces the held one (`<=`). -/
def pickKt (acc : Option (dijkstra_iteration_step T W))
    (e : dijkstra_iteration_step T W) : Option (dijkstra_iteration_step T W) :=
  if dle e.distance (match acc with | none => none | some c => c.distance)
  then some e else acc

/-- The Kotlin minimum-selection scan over the working set
(`for ((_, entry) in workingSet) ...` in `Graph.shortestPath`). -/
def scanMinKt (working : List T) (store : T → dijkstra_iteration_step T W) :
    Option (dijkstra_iteration_step T W) :=
  working.foldl (fun acc v => pickKt acc (store v)) none

/-- The mutable state of `dijkstra_traversal_iterator`: `store` models the
heap of `dijkstra_iteration_step` objects (one per node, shared between the
working set and the yielded pointers), and `working` models the key set of
`working_set` in scan order. -/
structure dijkstra_state (T : Type) (W : Type) where
  store : T → dijkstra_iteration_step T W
  working : List T

/-- The outgoing edges of the node stored under `v`
(`current_node->current->out_edges`). -/
def graph.outEdges (g : graph T W) (v : T) : List (graph_edge T W) :=
  match g.getNode? v with
  | some n => n.out_edges
  | none => []

/-- Relaxation of one outgoing edge of the selected node (body of the last
loop of `dijkstra_traversal_iterator::iter`): when the edge's destination is
still in the working set and the new candidate distance is smaller, the
destination's entry gets the new distance and the selected node as previous. -/
def relax_edge (c : T) (d : W) (working : List T)
    (st : T → dijkstra_iteration_step T W) (e : graph_edge T W) :
    T → dijkstra_iteration_step T W :=
  if decide (e.endN ∈ working) && dlt (some (d + e.weight)) ((st e.endN).distance)
  then fun v => if v = e.endN then
         { st e.endN with distance := some (d + e.weight), previous := some c }
       else st v
  else st

/-- `dijkstra_traversal_iterator::iter`, one increment of the algorithm:
scan the working set for the minimum entry (nothing to do if the set is
empty); erase it; if its distance is still infinite, terminate silently;
otherwise yield it and relax the outgoing edges of its node against the
entries still in the working set.  Returns the yielded step (`none` = the
traversal is over) and the state after the call. -/
def iter (g : graph T W) (σ : dijkstra_state T W) :
    Option (dijkstra_iteration_step T W) × dijkstra_state T W :=
  match scanMin σ.working σ.store with
  | none => (none, σ)
  | some c =>
    let working' := σ.working.erase c.current
    match c.distance with
    | none => (none, ⟨σ.store, working'⟩)
    | some d =>
      (some c,
        ⟨(g.outEdges c.current).foldl (relax_edge c.current d working') σ.store,
          working'⟩)

/-- The construction of the traversal iterator
(`dijkstra_traversal_iterator::dijkstra_traversal_iterator` with
`is_beginning = true`, which `dijkstra_traversal::begin` invokes): fails with
`UnknownNode` when the source is absent, otherwise builds the working set
containing every node of the graph, each at distance infinity with no
previous node, except the source at distance `0`. -/
def dijkstra_init (g : graph T W) (start : T) :
    Except GraphError (dijkstra_state T W) :=
  if g.containsNode start then
    Except.ok
      { store := fun v =>
          { current := v
            distance := if v = start then some 0 else none
            previous := none }
        working := g.nodes.map (fun p => p.1) }
  else Except.error GraphError.UnknownNode

/-- Running the traversal: each consumed step costs exactly one call of
`iter`; the run stops when `iter` yields nothing (terminal state) or when
`fuel` requests are exhausted (the consumer stops pulling). -/
def drun (g : graph T W) : dijkstra_state T W → Nat → List (dijkstra_iteration_step T W)
  | _, 0 => []
  | σ, n + 1 =>
    match iter g σ with
    | (none, _) => []
    | (some c, σ') => c :: drun g σ' n

/-- The state after at most `n` calls of `iter` (stopping at the terminal
state, as the consuming loop does). -/
def dstateRun (g : graph T W) : dijkstra_state T W → Nat → dijkstra_state T W
  | σ, 0 => σ
  | σ, n + 1 =>
    match iter g σ with
    | (none, σ') => σ'
    | (some _, σ') => dstateRun g σ' n

/-- The full traversal from `start`, run to exhaustion: `working.length + 1`
requests always reach the terminal state.  An absent source yields the empty
sequence here (the construction error is the subject of `dijkstra_init`). -/
def dijkstra_output (g : graph T W) (start : T) :
    List (dijkstra_iteration_step T W) :=
  match dijkstra_init g start with
  | Except.ok σ => drun g σ (σ.working.length + 1)
  | Except.error _ => []

/-- The first `k` consumed steps of a traversal from `start`: exactly `k`
increments of the algorithm are executed, after which the remaining state is
discarded. -/
def dijkstra_take (g : graph T W) (start : T) (k : Nat) :
    List (dijkstra_iteration_step T W) :=
  match dijkstra_init g start with
  | Except.ok σ => drun g σ k
  | Except.error _ => []

/-- Well-formedness of a graph, as established by building it through
`create_node` / `create_link`: node names are unique, every node is stored
under its own name, and each stored out-edge starts at its node, ends at a
node present in the graph, and has positive weight (the `graph_edge`
constructor rejects non-positive weights). -/
def graph.WellFormed (g : graph T W) : Prop :=
  (g.nodes.map (fun p => p.1)).Nodup ∧
  ∀ p ∈ g.nodes, p.2.name = p.1 ∧
    ∀ e ∈ p.2.out_edges,
      e.start = p.1 ∧ g.containsNode e.endN = true ∧ 0 < e.weight

instance (g : graph T W) : Decidable g.WellFormed := by
  unfold graph.WellFormed
  infer_instance

/-- The graph contains an edge from `a` to `b` of weight `w` (stored in the
out-edge list of `a`'s node). -/
def edgeIn (g : graph T W) (a b : T) (w : W) : Prop :=
  ∃ n, g.getNode? a = some n ∧ (⟨a, b, w⟩ : graph_edge T W) ∈ n.out_edges

/-- One-edge step relation of the graph. -/
def edgeRel (g : graph T W) (a b : T) : Prop := ∃ w, edgeIn g a b w

/-- `b` is reachable from `a` along directed edges. -/
def Reach (g : graph T W) (a b : T) : Prop :=
  Relation.ReflTransGen (edgeRel g) a b


/-! ## The ownership model of the node/edge reference cycle

The C++ teardown relies on reference counting: the graph holds `shared_ptr`s
to its nodes, each node holds `shared_ptr`s to the edges in its `out_edges`
and `in_edges` sets, while each edge holds only `weak_ptr`s back to its
endpoint nodes.  The model below records exactly the strong (owning)
references of that object graph. -/

/-- The runtime objects of one graph: the graph object itself, one object per
node, and one object per edge (an edge object is shared between its start
node's `out_edges` and its end node's `in_edges`, and is identified by its
endpoint pair — `create_link` guarantees at most one edge per pair). -/
inductive graph_object (T : Type) where
  | root : graph_object T
  | node : T → graph_object T
  | edge : T → T → graph_object T
deriving DecidableEq, Repr

/-- The strong (reference-counted, owning) references: graph → node through
the `nodes` map, node → edge through the `out_edges` / `in_edges` sets.  The
`weak_ptr`s from an edge to its endpoint nodes are deliberately absent — that
is the cycle-breaking choice of the source. -/
def strongRef (g : graph T W) : graph_object T → graph_object T → Prop
  | graph_object.root, graph_object.node v => g.containsNode v = true
  | graph_object.node v, graph_object.edge a b =>
    ∃ n, g.getNode? v = some n ∧
      ((∃ er ∈ n.out_edges, er.start = a ∧ er.endN = b) ∨
       (∃ er ∈ n.in_edges, er.start = a ∧ er.endN = b))
  | _, _ => False

/-- The objects belonging to a graph. -/
def graph_object_of (g : graph T W) : graph_object T → Prop
  | graph_object.root => True
  | graph_object.node v => g.containsNode v = true
  | graph_object.edge a b =>
    ∃ n, g.getNode? a = some n ∧ ∃ er ∈ n.out_edges, er.start = a ∧ er.endN = b

/-- Invariant tying the steps yielded so far (`out`) to the iterator state:
the store is keyed consistently; the working set is a duplicate-free subset of
the graph's nodes and partitions the nodes together with the yielded steps;
yielded steps are finite, sorted by distance, below every remaining working
distance, and carry predecessor records that point to earlier yielded steps
through real edges of the graph; every yielded node's out-neighbours are
either yielded or still reachable in the working set at a finite distance;
everything finite is reachable from the source. -/
structure DInv (g : graph T W) (start : T)
    (out : List (dijkstra_iteration_step T W)) (σ : dijkstra_state T W) :
    Prop where
  storeKey : ∀ v, (σ.store v).current = v
  wNodup : σ.working.Nodup
  wKeys : ∀ v ∈ σ.working, g.containsNode v = true
  partition : ∀ v, g.containsNode v = true →
    v ∈ σ.working ∨ v ∈ out.map (fun s => s.current)
  outNotWorking : ∀ s ∈ out, s.current ∉ σ.working
  outNodup : (out.map (fun s => s.current)).Nodup
  outFinite : ∀ s ∈ out, s.distance ≠ none
  sorted : out.Pairwise (fun a b => dlt b.distance a.distance = false)
  boundary : ∀ s ∈ out, ∀ v ∈ σ.working,
    dlt ((σ.store v).distance) s.distance = false
  predWork : ∀ v ∈ σ.working, ∀ p, (σ.store v).previous = some p →
    ∃ s ∈ out, s.current = p ∧ ∃ dp w, s.distance = some dp ∧
      edgeIn g p v w ∧ (σ.store v).distance = some (dp + w)
  predOut : ∀ pre s post, out = pre ++ s :: post → ∀ p, s.previous = some p →
    ∃ s' ∈ pre, s'.current = p ∧ ∃ dp w, s'.distance = some dp ∧
      edgeIn g p s.current w ∧ s.distance = some (dp + w)
  succ : ∀ s ∈ out, ∀ e ∈ g.outEdges s.current,
    e.endN ∈ out.map (fun x => x.current) ∨
    (e.endN ∈ σ.working ∧ (σ.store e.endN).distance ≠ none)
  reachOut : ∀ s ∈ out, Reach g start s.current
  reachWork : ∀ v ∈ σ.working, (σ.store v).distance ≠ none → Reach g start v
  startDist : start ∈ σ.working → (σ.store start).distance ≠ none

/-! ## Concrete inputs used to witness the theorems below -/

/-- Edge 0 → 1, weight 1. -/
def e01 : graph_edge ℕ ℤ := ⟨0, 1, 1⟩

/-- Edge 1 → 2, weight 1. -/
def e12 : graph_edge ℕ ℤ := ⟨1, 2, 1⟩

/-- Edge 0 → 2, weight 5 (dominated by the path through 1). -/
def e02 : graph_edge ℕ ℤ := ⟨0, 2, 5⟩

/-- A four-node example graph: `0 → 1 → 2` with weight-1 edges, a heavier
direct edge `0 → 2`, and an isolated node `3` (unreachable from 0). -/
def gEx : graph ℕ ℤ :=
  ⟨[(0, ⟨0, [e01, e02], []⟩), (1, ⟨1, [e12], [e01]⟩),
    (2, ⟨2, [], [e12, e02]⟩), (3, ⟨3, [], []⟩)]⟩

/-- The freshly initialized iterator state for `gEx` with source `0`. -/
def sEx : dijkstra_state ℕ ℤ :=
  ⟨fun v => ⟨v, if v = 0 then some 0 else none, none⟩, [0, 1, 2, 3]⟩

/-- A store in which every entry carries the same distance — a tie for the
minimum. -/
def stTie : ℕ → dijkstra_iteration_step ℕ ℤ := fun v => ⟨v, some 1, none⟩

/-! ## Order lemmas for the embedded distance comparisons -/

theorem dlt_irrefl (a : Option W) : dlt a a = false := by
  cases a <;> simp [dlt]

theorem dlt_asymm {a b : Option W} (h : dlt a b = true) : dlt b a = false := by
  cases a <;> cases b <;> simp_all [dlt]
  exact le_of_lt h

theorem dlt_trans {a b c : Option W} (h1 : dlt a b = true)
    (h2 : dlt b c = true) : dlt a c = true := by
  cases a <;> cases b <;> cases c <;> simp_all [dlt]
  exact lt_trans h1 h2

theorem dlt_of_dlt_of_not_dlt {a b c : Option W} (h1 : dlt a b = true)
    (h2 : dlt c b = false) : dlt a c = true := by
  cases a <;> cases b <;> cases c <;> simp_all [dlt]
  exact lt_of_lt_of_le h1 h2

theorem not_dlt_trans {a b c : Option W} (h1 : dlt b a = false)
    (h2 : dlt c b = false) : dlt c a = false := by
  cases a <;> cases b <;> cases c <;> simp_all [dlt]
  exact le_trans h1 h2

theorem dlt_none {a : Option W} (h : dlt a none = false) : a = none := by
  cases a <;> simp_all [dlt]

theorem dlt_some_none (q : W) : dlt (some q) none = true := rfl

theorem not_dle {a b : Option W} (h : dle a b = false) : dlt b a = true := by
  cases a <;> cases b <;> simp_all [dlt, dle]

theorem dle_trans {a b c : Option W} (h1 : dle a b = true)
    (h2 : dle b c = true) : dle a c = true := by
  cases a <;> cases b <;> cases c <;> simp_all [dle]
  exact le_trans h1 h2

theorem dle_of_dle_of_dlt {a b c : Option W} (h1 : dle a b = true)
    (h2 : dlt b c = true) : dle a c = true := by
  cases a <;> cases b <;> cases c <;> simp_all [dle, dlt]
  exact le_of_lt (lt_of_le_of_lt h1 h2)

theorem not_dlt_of_dle {a b : Option W} (h : dle a b = true) :
    dlt b a = false := by
  cases a <;> cases b <;> simp_all [dle, dlt]

/-! ## Characterization of the two minimum-selection scans -/

/-- The C++ selection fold starting from a held entry `c`: either `c` survives
(and then nothing scanned later is strictly below it), or the fold ends on the
entry of some later element `u`, the first element strictly below everything
scanned before it; everything after it is not below it. -/
theorem foldl_pickCpp_spec (store : T → dijkstra_iteration_step T W) :
    ∀ (l : List T) (c : dijkstra_iteration_step T W),
      (l.foldl (fun acc v => pickCpp acc (store v)) (some c) = some c ∧
        ∀ v ∈ l, dlt (store v).distance c.distance = false) ∨
      (∃ l1 u l2, l = l1 ++ u :: l2 ∧
        l.foldl (fun acc v => pickCpp acc (store v)) (some c) = some (store u) ∧
        dlt (store u).distance c.distance = true ∧
        (∀ v ∈ l1, dlt (store u).distance (store v).distance = true) ∧
        (∀ v ∈ l2, dlt (store v).distance (store u).distance = false)) := by
  intro l
  induction l with
  | nil => intro c; exact Or.inl ⟨rfl, by simp⟩
  | cons v l ih =>
    intro c
    by_cases hv : dlt (store v).distance c.distance = true
    · have hstep : List.foldl (fun acc v => pickCpp acc (store v)) (some c) (v :: l)
          = List.foldl (fun acc v => pickCpp acc (store v)) (some (store v)) l := by
        simp [List.foldl_cons, pickCpp, hv]
      rcases ih (store v) with ⟨heq, hrest⟩ | ⟨l1, u, l2, hdec, heq, hlt, hl1, hl2⟩
      · refine Or.inr ⟨[], v, l, rfl, ?_, hv, by simp, ?_⟩
        · rw [hstep, heq]
        · exact hrest
      · refine Or.inr ⟨v :: l1, u, l2, by simp [hdec], ?_, dlt_trans hlt hv, ?_, hl2⟩
        · rw [hstep, heq]
        · intro x hx
          rcases List.mem_cons.mp hx with hx | hx
          · subst hx; exact hlt
          · exact hl1 x hx
    · have hv' : dlt (store v).distance c.distance = false :=
        Bool.eq_false_iff.mpr hv
      have hstep : List.foldl (fun acc v => pickCpp acc (store v)) (some c) (v :: l)
          = List.foldl (fun acc v => pickCpp acc (store v)) (some c) l := by
        simp [List.foldl_cons, pickCpp, hv']
      rcases ih c with ⟨heq, hrest⟩ | ⟨l1, u, l2, hdec, heq, hlt, hl1, hl2⟩
      · refine Or.inl ⟨by rw [hstep, heq], ?_⟩
        intro x hx
        rcases List.mem_cons.mp hx with hx | hx
        · subst hx; exact hv'
        · exact hrest x hx
      · refine Or.inr ⟨v :: l1, u, l2, by simp [hdec], by rw [hstep, heq],
          hlt, ?_, hl2⟩
        intro x hx
        rcases List.mem_cons.mp hx with hx | hx
        · subst hx; exact dlt_of_dlt_of_not_dlt hlt hv'
        · exact hl1 x hx

/-- `scanMin` of a non-empty working set selects the entry of the first
element attaining the minimum distance: elements scanned before it are
strictly farther, elements scanned after it are not closer. -/
theorem scanMin_spec (working : List T)
    (store : T → dijkstra_iteration_step T W) (c : dijkstra_iteration_step T W)
    (h : scanMin working store = some c) :
    ∃ l1 u l2, working = l1 ++ u :: l2 ∧ c = store u ∧
      (∀ v ∈ l1, dlt c.distance (store v).distance = true) ∧
      (∀ v ∈ l2, dlt (store v).distance c.distance = false) := by
  match working with
  | [] => simp [scanMin] at h
  | w :: l =>
    have h0 : scanMin (w :: l) store
        = l.foldl (fun acc v => pickCpp acc (store v)) (some (store w)) := by
      simp [scanMin, List.foldl_cons, pickCpp]
    rcases foldl_pickCpp_spec store l (store w) with ⟨heq, hrest⟩ |
      ⟨l1, u, l2, hdec, heq, hlt, hl1, hl2⟩
    · refine ⟨[], w, l, rfl, ?_, by simp, ?_⟩
      · rw [h0, heq] at h; exact (Option.some_inj.mp h).symm
      · intro v hv
        rw [h0, heq] at h
        have hc : c = store w := (Option.some_inj.mp h).symm
        rw [hc]; exact hrest v hv
    · rw [h0, heq] at h
      have hc : c = store u := (Option.some_inj.mp h).symm
      refine ⟨w :: l1, u, l2, by simp [hdec], hc, ?_, ?_⟩
      · intro v hv
        rcases List.mem_cons.mp hv with hv | hv
        · subst hv; rw [hc]; exact hlt
        · rw [hc]; exact hl1 v hv
      · intro v hv; rw [hc]; exact hl2 v hv

theorem scanMin_none (working : List T)
    (store : T → dijkstra_iteration_step T W) :
    scanMin working store = none ↔ working = [] := by
  constructor
  · intro h
    match working with
    | [] => rfl
    | w :: l =>
      exfalso
      have h0 : scanMin (w :: l) store
          = l.foldl (fun acc v => pickCpp acc (store v)) (some (store w)) := by
        simp [scanMin, List.foldl_cons, pickCpp]
      rcases foldl_pickCpp_spec store l (store w) with ⟨heq, _⟩ |
        ⟨l1, u, l2, _, heq, _, _, _⟩ <;> rw [h0, heq] at h <;> exact Option.noConfusion h
  · intro h; subst h; rfl

theorem dle_none_right (a : Option W) : dle a none = true := by
  cases a <;> rfl

/-- The Kotlin selection fold starting from a held entry `c`: either `c`
survives (everything scanned later is strictly above it), or the fold ends on
the entry of some later element `u` that is at most `c`, at most everything
scanned between, and strictly below everything scanned after it. -/
theorem foldl_pickKt_spec (store : T → dijkstra_iteration_step T W) :
    ∀ (l : List T) (c : dijkstra_iteration_step T W),
      (l.foldl (fun acc v => pickKt acc (store v)) (some c) = some c ∧
        ∀ v ∈ l, dlt c.distance (store v).distance = true) ∨
      (∃ l1 u l2, l = l1 ++ u :: l2 ∧
        l.foldl (fun acc v => pickKt acc (store v)) (some c) = some (store u) ∧
        dle (store u).distance c.distance = true ∧
        (∀ v ∈ l1, dle (store u).distance (store v).distance = true) ∧
        (∀ v ∈ l2, dlt (store u).distance (store v).distance = true)) := by
  intro l
  induction l with
  | nil => intro c; exact Or.inl ⟨rfl, by simp⟩
  | cons v l ih =>
    intro c
    by_cases hd : dle (store v).distance c.distance = true
    · have hstep : List.foldl (fun acc v => pickKt acc (store v)) (some c) (v :: l)
          = List.foldl (fun acc v => pickKt acc (store v)) (some (store v)) l := by
        simp [List.foldl_cons, pickKt, hd]
      rcases ih (store v) with ⟨heq, hrest⟩ | ⟨l1, u, l2, hdec, heq, hle, hl1, hl2⟩
      · exact Or.inr ⟨[], v, l, rfl, by rw [hstep, heq], hd, by simp, hrest⟩
      · refine Or.inr ⟨v :: l1, u, l2, by simp [hdec], by rw [hstep, heq],
          dle_trans hle hd, ?_, hl2⟩
        intro x hx
        rcases List.mem_cons.mp hx with hx | hx
        · subst hx; exact hle
        · exact hl1 x hx
    · have hd' : dle (store v).distance c.distance = false :=
        Bool.eq_false_iff.mpr hd
      have hcv : dlt c.distance (store v).distance = true := not_dle hd'
      have hstep : List.foldl (fun acc v => pickKt acc (store v)) (some c) (v :: l)
          = List.foldl (fun acc v => pickKt acc (store v)) (some c) l := by
        simp [List.foldl_cons, pickKt, hd']
      rcases ih c with ⟨heq, hrest⟩ | ⟨l1, u, l2, hdec, heq, hle, hl1, hl2⟩
      · refine Or.inl ⟨by rw [hstep, heq], ?_⟩
        intro x hx
        rcases List.mem_cons.mp hx with hx | hx
        · subst hx; exact hcv
        · exact hrest x hx
      · refine Or.inr ⟨v :: l1, u, l2, by simp [hdec], by rw [hstep, heq],
          hle, ?_, hl2⟩
        intro x hx
        rcases List.mem_cons.mp hx with hx | hx
        · subst hx; exact dle_of_dle_of_dlt hle hcv
        · exact hl1 x hx

/-- `scanMinKt` of a non-empty working set selects the entry of the last
element attaining the minimum distance: elements scanned before it are not
closer, elements scanned after it are strictly farther. -/
theorem scanMinKt_spec (working : List T)
    (store : T → dijkstra_iteration_step T W) (c : dijkstra_iteration_step T W)
    (h : scanMinKt working store = some c) :
    ∃ l1 u l2, working = l1 ++ u :: l2 ∧ c = store u ∧
      (∀ v ∈ l1, dle c.distance (store v).distance = true) ∧
      (∀ v ∈ l2, dlt c.distance (store v).distance = true) := by
  match working with
  | [] => simp [scanMinKt] at h
  | w :: l =>
    have h0 : scanMinKt (w :: l) store
        = l.foldl (fun acc v => pickKt acc (store v)) (some (store w)) := by
      simp [scanMinKt, List.foldl_cons, pickKt, dle_none_right]
    rcases foldl_pickKt_spec store l (store w) with ⟨heq, hrest⟩ |
      ⟨l1, u, l2, hdec, heq, hle, hl1, hl2⟩
    · rw [h0, heq] at h
      have hc : c = store w := (Option.some_inj.mp h).symm
      subst hc
      exact ⟨[], w, l, rfl, rfl, by simp, hrest⟩
    · rw [h0, heq] at h
      have hc : c = store u := (Option.some_inj.mp h).symm
      subst hc
      refine ⟨w :: l1, u, l2, by simp [hdec], rfl, ?_, hl2⟩
      intro x hx
      rcases List.mem_cons.mp hx with hx | hx
      · subst hx; exact hle
      · exact hl1 x hx

/-! ## Properties of the relaxation fold -/

theorem relax_fold_frame (c : T) (d : W) (working : List T)
    (outs : List (graph_edge T W)) (st : T → dijkstra_iteration_step T W)
    (v : T) (hv : v ∉ working) :
    (outs.foldl (relax_edge c d working) st) v = st v := by
  induction outs generalizing st with
  | nil => rfl
  | cons e rest ih =>
    rw [List.foldl_cons]
    rw [ih (relax_edge c d working st e)]
    unfold relax_edge
    by_cases hc : (decide (e.endN ∈ working) &&
        dlt (some (d + e.weight)) ((st e.endN).distance)) = true
    · rw [if_pos hc]
      have hmem : e.endN ∈ working := by
        have := (Bool.and_eq_true _ _).mp hc
        exact of_decide_eq_true this.1
      have hne : v ≠ e.endN := fun h => hv (h ▸ hmem)
      simp [hne]
    · rw [if_neg hc]

theorem relax_fold_current (c : T) (d : W) (working : List T)
    (outs : List (graph_edge T W)) (st : T → dijkstra_iteration_step T W)
    (v : T) :
    ((outs.foldl (relax_edge c d working) st) v).current = (st v).current := by
  induction outs generalizing st with
  | nil => rfl
  | cons e rest ih =>
    rw [List.foldl_cons, ih (relax_edge c d working st e)]
    unfold relax_edge
    by_cases hc : (decide (e.endN ∈ working) &&
        dlt (some (d + e.weight)) ((st e.endN).distance)) = true
    · rw [if_pos hc]
      by_cases hv : v = e.endN
      · subst hv; simp
      · simp [hv]
    · rw [if_neg hc]

/-- Pointwise outcome of the relaxation fold: a key is either untouched or has
been relaxed along one of the scanned edges ending at it, receiving that
edge's candidate distance and the selected node as previous. -/
theorem relax_fold_outcome (c : T) (d : W) (working : List T)
    (outs : List (graph_edge T W)) (st : T → dijkstra_iteration_step T W)
    (v : T) :
    (outs.foldl (relax_edge c d working) st) v = st v ∨
    ∃ e ∈ outs, e.endN = v ∧ v ∈ working ∧
      ((outs.foldl (relax_edge c d working) st) v).distance = some (d + e.weight) ∧
      ((outs.foldl (relax_edge c d working) st) v).previous = some c := by
  induction outs generalizing st with
  | nil => exact Or.inl rfl
  | cons e rest ih =>
    rw [List.foldl_cons]
    rcases ih (relax_edge c d working st e) with h | ⟨e', he', hv, hw, hd, hp⟩
    · rw [h]
      unfold relax_edge
      by_cases hc : (decide (e.endN ∈ working) &&
          dlt (some (d + e.weight)) ((st e.endN).distance)) = true
      · rw [if_pos hc]
        by_cases hv : v = e.endN
        · subst hv
          refine Or.inr ⟨e, List.mem_cons_self e rest, rfl, ?_, ?_, ?_⟩
          · exact of_decide_eq_true ((Bool.and_eq_true _ _).mp hc).1
          · simp
          · simp
        · simp [hv]
      · rw [if_neg hc]; exact Or.inl rfl
    · exact Or.inr ⟨e', List.mem_cons_of_mem e he', hv, hw, hd, hp⟩

/-- The relaxation fold never increases a distance. -/
theorem relax_fold_nonincrease (c : T) (d : W) (working : List T)
    (outs : List (graph_edge T W)) (st : T → dijkstra_iteration_step T W)
    (v : T) :
    dlt ((st v).distance)
      (((outs.foldl (relax_edge c d working) st) v).distance) = false := by
  induction outs generalizing st with
  | nil => exact dlt_irrefl _
  | cons e rest ih =>
    rw [List.foldl_cons]
    have h2 := ih (relax_edge c d working st e)
    have h1 : dlt ((st v).distance) (((relax_edge c d working st e) v).distance)
        = false := by
      unfold relax_edge
      by_cases hc : (decide (e.endN ∈ working) &&
          dlt (some (d + e.weight)) ((st e.endN).distance)) = true
      · rw [if_pos hc]
        by_cases hv : v = e.endN
        · subst hv
          simp only [if_pos rfl]
          exact dlt_asymm ((Bool.and_eq_true _ _).mp hc).2
        · simp [hv, dlt_irrefl]
      · rw [if_neg hc]; exact dlt_irrefl _
    exact not_dlt_trans h2 h1

/-- The relaxation fold never turns a finite distance back into infinity. -/
theorem relax_fold_finite (c : T) (d : W) (working : List T)
    (outs : List (graph_edge T W)) (st : T → dijkstra_iteration_step T W)
    (v : T) (h : (st v).distance ≠ none) :
    ((outs.foldl (relax_edge c d working) st) v).distance ≠ none := by
  rcases relax_fold_outcome c d working outs st v with heq | ⟨e, _, _, _, hd, _⟩
  · rw [heq]; exact h
  · rw [hd]; exact Option.noConfusion

/-- After the relaxation fold, every scanned edge whose destination is in the
working set leaves that destination with a finite distance. -/
theorem relax_fold_succ_finite (c : T) (d : W) (working : List T)
    (outs : List (graph_edge T W)) (st : T → dijkstra_iteration_step T W) :
    ∀ e ∈ outs, e.endN ∈ working →
      ((outs.foldl (relax_edge c d working) st) e.endN).distance ≠ none := by
  induction outs generalizing st with
  | nil => intro e he; exact absurd he (List.not_mem_nil e)
  | cons e0 rest ih =>
    intro e he hmem
    rw [List.foldl_cons]
    rcases List.mem_cons.mp he with he | he
    · subst he
      apply relax_fold_finite
      unfold relax_edge
      by_cases hc : (decide (e.endN ∈ working) &&
          dlt (some (d + e.weight)) ((st e.endN).distance)) = true
      · rw [if_pos hc]; simp
      · rw [if_neg hc]
        have hdec : decide (e.endN ∈ working) = true := decide_eq_true hmem
        have : dlt (some (d + e.weight)) ((st e.endN).distance) = false := by
          by_contra hx
          exact hc (by rw [hdec, eq_true_of_ne_false hx]; rfl)
        intro hnone
        rw [hnone] at this
        exact Bool.noConfusion (this ▸ dlt_some_none (d + e.weight))
    · exact ih (relax_edge c d working st e0) e he hmem

/-! ## One-increment facts -/

theorem iter_working_subset (g : graph T W) (σ : dijkstra_state T W) :
    ((iter g σ).2).working ⊆ σ.working := by
  unfold iter
  rcases h : scanMin σ.working σ.store with _ | c
  · exact fun a ha => ha
  · rcases hd : c.distance with _ | d <;> simp only [hd] <;>
      exact List.erase_subset _ _

/-- `iter` never touches the entry of a node that is no longer in the working
set (relaxation guards on membership in the working set). -/
theorem iter_store_frame (g : graph T W) (σ : dijkstra_state T W) (v : T)
    (hv : v ∉ σ.working) :
    ((iter g σ).2).store v = σ.store v := by
  unfold iter
  rcases h : scanMin σ.working σ.store with _ | c
  · rfl
  · rcases hd : c.distance with _ | d
    · simp only [hd]
    · simp only [hd]
      have hv' : v ∉ σ.working.erase c.current :=
        fun hx => hv (List.erase_subset _ _ hx)
      exact relax_fold_frame _ _ _ _ _ v hv'

theorem iter_store_current (g : graph T W) (σ : dijkstra_state T W) (v : T) :
    (((iter g σ).2).store v).current = (σ.store v).current := by
  unfold iter
  rcases h : scanMin σ.working σ.store with _ | c
  · rfl
  · rcases hd : c.distance with _ | d
    · simp only [hd]
    · simp only [hd]
      exact relax_fold_current _ _ _ _ _ v

/-- After an entry's node has left the working set, no number of further
increments ever modifies that entry again. -/
theorem dstateRun_store_frame (g : graph T W) (σ : dijkstra_state T W) (v : T)
    (hv : v ∉ σ.working) (n : Nat) :
    (dstateRun g σ n).store v = σ.store v := by
  induction n generalizing σ with
  | zero => rfl
  | succ n ih =>
    rcases hiter : iter g σ with ⟨o, σ'⟩
    have hsub : σ'.working ⊆ σ.working := by
      have := iter_working_subset g σ
      rw [hiter] at this
      exact this
    have hframe : σ'.store v = σ.store v := by
      have := iter_store_frame g σ v hv
      rw [hiter] at this
      exact this
    cases o with
    | none => simp only [dstateRun, hiter]; exact hframe
    | some c =>
      simp only [dstateRun, hiter]
      rw [ih σ' (fun hx => hv (hsub hx))]
      exact hframe

theorem scanMin_mem_working (σ : dijkstra_state T W)
    (hkey : ∀ v, (σ.store v).current = v) (c : dijkstra_iteration_step T W)
    (h : scanMin σ.working σ.store = some c) : c.current ∈ σ.working := by
  obtain ⟨l1, u, l2, hdec, hc, _, _⟩ := scanMin_spec σ.working σ.store c h
  rw [hc, hkey u, hdec]
  exact List.mem_append_right l1 (List.mem_cons_self u l2)

theorem iter_preserves_key (g : graph T W) (σ : dijkstra_state T W)
    (hkey : ∀ v, (σ.store v).current = v) (v : T) :
    (((iter g σ).2).store v).current = v := by
  rw [iter_store_current]; exact hkey v

/-- Requesting more steps only ever extends the result: the first `k` steps
of a longer run are exactly the `k`-step run. -/
theorem drun_take (g : graph T W) :
    ∀ (k n : Nat) (σ : dijkstra_state T W), k ≤ n →
      drun g σ k = (drun g σ n).take k := by
  intro k
  induction k with
  | zero => intro n σ _; rfl
  | succ k ih =>
    intro n σ hkn
    rcases n with _ | n
    · exact absurd hkn (by omega)
    · rcases hiter : iter g σ with ⟨o, σ'⟩
      cases o with
      | none => simp only [drun, hiter, List.take_nil]
      | some c =>
        simp only [drun, hiter, List.take_succ_cons]
        rw [ih n σ' (Nat.succ_le_succ_iff.mp hkn)]

theorem drun_length_le (g : graph T W) :
    ∀ (n : Nat) (σ : dijkstra_state T W), (drun g σ n).length ≤ n := by
  intro n
  induction n with
  | zero => intro σ; exact Nat.le_refl 0
  | succ n ih =>
    intro σ
    rcases hiter : iter g σ with ⟨o, σ'⟩
    cases o with
    | none => simp [drun, hiter]
    | some c =>
      simp only [drun, hiter, List.length_cons]
      exact Nat.succ_le_succ (ih σ')

/-- Inversion of a productive increment. -/
theorem iter_some_inv (g : graph T W) (σ : dijkstra_state T W)
    (c : dijkstra_iteration_step T W) (σ' : dijkstra_state T W) :
    iter g σ = (some c, σ') →
      scanMin σ.working σ.store = some c ∧
      (∃ d, c.distance = some d) ∧
      σ'.working = σ.working.erase c.current ∧
      ∀ d, c.distance = some d →
        σ'.store = (g.outEdges c.current).foldl
          (relax_edge c.current d (σ.working.erase c.current)) σ.store := by
  unfold iter
  rcases hs : scanMin σ.working σ.store with _ | c'
  · intro h; exact absurd h (by simp)
  · rcases hd : c'.distance with _ | d0
    · simp only [hd]
      intro h
      exact absurd (Prod.ext_iff.mp h).1 (by simp)
    · simp only [hd]
      intro h
      simp only [Prod.mk.injEq, Option.some.injEq] at h
      obtain ⟨h1, h2⟩ := h
      subst h1
      refine ⟨rfl, ⟨d0, hd⟩, by rw [← h2], ?_⟩
      intro d hdd
      rw [hd] at hdd
      have h3 : d0 = d := Option.some_inj.mp hdd
      subst h3
      rw [← h2]

/-- Inversion of a terminal increment. -/
theorem iter_none_inv (g : graph T W) (σ : dijkstra_state T W)
    (σ' : dijkstra_state T W) :
    iter g σ = (none, σ') →
      (scanMin σ.working σ.store = none ∧ σ' = σ) ∨
      (∃ c, scanMin σ.working σ.store = some c ∧ c.distance = none ∧
        σ' = ⟨σ.store, σ.working.erase c.current⟩) := by
  unfold iter
  rcases hs : scanMin σ.working σ.store with _ | c'
  · intro h
    simp only [Prod.mk.injEq] at h
    exact Or.inl ⟨rfl, h.2.symm⟩
  · rcases hd : c'.distance with _ | d0
    · simp only [hd]
      intro h
      simp only [Prod.mk.injEq] at h
      exact Or.inr ⟨c', rfl, hd, h.2.symm⟩
    · simp only [hd]
      intro h
      simp only [Prod.mk.injEq] at h
      exact absurd h.1 (by simp)

/-- Once the fuel exceeds the size of the working set, more fuel does not
change the run: the traversal has already reached its terminal state. -/
theorem drun_fuel (g : graph T W) :
    ∀ (n m : Nat) (σ : dijkstra_state T W),
      (∀ v, (σ.store v).current = v) → σ.working.length < n → n ≤ m →
      drun g σ m = drun g σ n := by
  intro n
  induction n with
  | zero => intro m σ _ h; exact absurd h (by omega)
  | succ n ih =>
    intro m σ hkey hlen hnm
    rcases m with _ | m
    · exact absurd hnm (by omega)
    · rcases hiter : iter g σ with ⟨o, σ'⟩
      cases o with
      | none => simp only [drun, hiter]
      | some c =>
        simp only [drun, hiter]
        have hkey' : ∀ v, (σ'.store v).current = v := by
          intro v
          have := iter_preserves_key g σ hkey v
          rw [hiter] at this
          exact this
        obtain ⟨hscan, -, herase, -⟩ := iter_some_inv g σ c σ' hiter
        have hmem : c.current ∈ σ.working := scanMin_mem_working σ hkey c hscan
        have hpos : 0 < σ.working.length := List.length_pos_of_mem hmem
        have hwlen : σ'.working.length < n := by
          rw [herase, List.length_erase_of_mem hmem]
          omega
        rw [ih m σ' hkey' hwlen (Nat.succ_le_succ_iff.mp hnm)]

/-! ## Well-formedness helpers -/

theorem containsNode_iff_mem (g : graph T W) (v : T) :
    g.containsNode v = true ↔ v ∈ g.nodes.map (fun p => p.1) := by
  unfold graph.containsNode
  rw [List.any_eq_true]
  constructor
  · rintro ⟨p, hp, he⟩
    exact List.mem_map.mpr ⟨p, hp, of_decide_eq_true he⟩
  · rintro h
    obtain ⟨p, hp, he⟩ := List.mem_map.mp h
    exact ⟨p, hp, decide_eq_true he⟩

theorem getNode?_some_of_contains (g : graph T W) (v : T)
    (h : g.containsNode v = true) : ∃ n, g.getNode? v = some n := by
  unfold graph.containsNode at h
  unfold graph.getNode?
  obtain ⟨p, hp, he⟩ := List.any_eq_true.mp h
  have : (g.nodes.find? (fun p => p.1 = v)).isSome := by
    rw [List.find?_isSome]
    exact ⟨p, hp, he⟩
  obtain ⟨q, hq⟩ := Option.isSome_iff_exists.mp this
  exact ⟨q.2, by rw [hq]; rfl⟩

theorem contains_of_getNode?_some (g : graph T W) (v : T)
    (n : graph_node T W) (h : g.getNode? v = some n) :
    g.containsNode v = true := by
  unfold graph.getNode? at h
  rcases hf : g.nodes.find? (fun p => p.1 = v) with _ | p
  · rw [hf] at h; exact Option.noConfusion h
  · have hp := List.mem_of_find?_eq_some hf
    have he := List.find?_some hf
    exact (containsNode_iff_mem g v).mpr
      (List.mem_map.mpr ⟨p, hp, of_decide_eq_true he⟩)

theorem getNode?_mem (g : graph T W) (v : T) (n : graph_node T W)
    (h : g.getNode? v = some n) : (v, n) ∈ g.nodes := by
  unfold graph.getNode? at h
  rcases hf : g.nodes.find? (fun p => p.1 = v) with _ | p
  · rw [hf] at h; exact Option.noConfusion h
  · rw [hf] at h
    have hp := List.mem_of_find?_eq_some hf
    have he' := List.find?_some hf
    have he : p.1 = v := of_decide_eq_true he'
    have hn : p.2 = n := Option.some_inj.mp h
    rw [← he, ← hn]
    exact hp

/-- Every stored out-edge of a well-formed graph starts at its node, has a
positive weight, and ends inside the graph. -/
theorem wf_outEdges (g : graph T W) (hwf : g.WellFormed) (v : T)
    (e : graph_edge T W) (he : e ∈ g.outEdges v) :
    e.start = v ∧ g.containsNode e.endN = true ∧ 0 < e.weight ∧
      edgeIn g v e.endN e.weight := by
  unfold graph.outEdges at he
  rcases hn : g.getNode? v with _ | n
  · rw [hn] at he; exact absurd he (List.not_mem_nil e)
  · rw [hn] at he
    have hmem := getNode?_mem g v n hn
    obtain ⟨-, hedges⟩ := hwf.2 (v, n) hmem
    obtain ⟨hstart, hcontains, hw⟩ := hedges e he
    refine ⟨hstart, hcontains, hw, n, hn, ?_⟩
    have : e = ⟨v, e.endN, e.weight⟩ := by
      cases e; simp_all
    rw [← this]
    exact he

theorem edgeIn_contains_dest (g : graph T W) (hwf : g.WellFormed)
    {a b : T} {w : W} (h : edgeIn g a b w) : g.containsNode b = true := by
  obtain ⟨n, hn, he⟩ := h
  obtain ⟨-, hedges⟩ := hwf.2 (a, n) (getNode?_mem g a n hn)
  exact (hedges _ he).2.1

theorem reach_contains (g : graph T W) (hwf : g.WellFormed) (a b : T)
    (ha : g.containsNode a = true) (h : Reach g a b) :
    g.containsNode b = true := by
  induction h with
  | refl => exact ha
  | tail _ hstep ih =>
    obtain ⟨w, hw⟩ := hstep
    exact edgeIn_contains_dest g hwf hw

theorem edgeIn_outEdges (g : graph T W) {a b : T} {w : W}
    (h : edgeIn g a b w) : (⟨a, b, w⟩ : graph_edge T W) ∈ g.outEdges a := by
  obtain ⟨n, hn, he⟩ := h
  unfold graph.outEdges
  rw [hn]
  exact he

theorem dlt_some_some (a b : W) : dlt (some a) (some b) = decide (a < b) := rfl

/-- Splitting a list that ends in `c`: a decomposition `pre ++ s :: post`
either has `s = c` at the very end, or decomposes the front. -/
theorem snoc_decomp {α : Type} (c : α) :
    ∀ (pre : List α) (out : List α) (s : α) (post : List α),
      out ++ [c] = pre ++ s :: post →
      (pre = out ∧ s = c ∧ post = []) ∨
      (∃ post', post = post' ++ [c] ∧ out = pre ++ s :: post') := by
  intro pre
  induction pre with
  | nil =>
    intro out s post h
    rcases out with _ | ⟨o, out'⟩
    · simp only [List.nil_append] at h
      obtain ⟨h1, h2⟩ := List.cons.inj h
      exact Or.inl ⟨rfl, h1.symm, h2.symm⟩
    · simp only [List.cons_append, List.nil_append] at h
      obtain ⟨h1, h2⟩ := List.cons.inj h
      subst h1
      exact Or.inr ⟨out', h2.symm, by simp⟩
  | cons p pre' ih =>
    intro out s post h
    rcases out with _ | ⟨o, out'⟩
    · simp only [List.nil_append, List.cons_append] at h
      obtain ⟨h1, h2⟩ := List.cons.inj h
      rcases pre' with _ | ⟨q, pre''⟩ <;> simp at h2
    · simp only [List.cons_append] at h
      obtain ⟨h1, h2⟩ := List.cons.inj h
      subst h1
      rcases ih out' s post h2 with ⟨hp, hs, hpost⟩ | ⟨post', hp, ho⟩
      · exact Or.inl ⟨by rw [hp], hs, hpost⟩
      · exact Or.inr ⟨post', hp, by rw [List.cons_append, ho]⟩

/-! ## The Dijkstra loop invariant -/

/-- The freshly constructed iterator state satisfies the invariant with no
steps yielded yet. -/
theorem dijkstra_init_DInv (g : graph T W) (start : T) (hwf : g.WellFormed)
    (σ : dijkstra_state T W) (h : dijkstra_init g start = Except.ok σ) :
    DInv g start [] σ := by
  unfold dijkstra_init at h
  by_cases hc : g.containsNode start = true
  · rw [if_pos hc] at h
    injection h with hσ
    subst hσ
    constructor
    · intro v; rfl
    · exact hwf.1
    · intro v hv; exact (containsNode_iff_mem g v).mpr hv
    · intro v hv; exact Or.inl ((containsNode_iff_mem g v).mp hv)
    · intro s hs; exact absurd hs (List.not_mem_nil s)
    · exact List.nodup_nil
    · intro s hs; exact absurd hs (List.not_mem_nil s)
    · exact List.Pairwise.nil
    · intro s hs; exact absurd hs (List.not_mem_nil s)
    · intro v _ p hp; exact absurd hp (by simp)
    · intro pre s post hdec
      exact absurd hdec (by simp [List.append_eq_nil])
    · intro s hs; exact absurd hs (List.not_mem_nil s)
    · intro s hs; exact absurd hs (List.not_mem_nil s)
    · intro v _ hfin
      by_cases hv : v = start
      · subst hv; exact Relation.ReflTransGen.refl
      · exact absurd (by simp [hv]) hfin
    · intro _
      simp
  · rw [if_neg hc] at h
    exact Except.noConfusion h

/-- One productive increment preserves the loop invariant, with the selected
minimum entry appended to the yielded steps. -/
theorem iter_preserves_DInv (g : graph T W) (start : T) (hwf : g.WellFormed)
    (out : List (dijkstra_iteration_step T W)) (σ : dijkstra_state T W)
    (c : dijkstra_iteration_step T W) (σ' : dijkstra_state T W)
    (hinv : DInv g start out σ) (h : iter g σ = (some c, σ')) :
    DInv g start (out ++ [c]) σ' := by
  obtain ⟨hscan, ⟨d, hd⟩, herase, hstoreF⟩ := iter_some_inv g σ c σ' h
  have hstore' : σ'.store = (g.outEdges c.current).foldl
      (relax_edge c.current d (σ.working.erase c.current)) σ.store := hstoreF d hd
  obtain ⟨l1, u, l2, hwdec, hcu, hl1, hl2⟩ := scanMin_spec _ _ _ hscan
  have hcc : c.current = u := by rw [hcu]; exact hinv.storeKey u
  have cmem : c.current ∈ σ.working := by
    rw [hcc, hwdec]
    exact List.mem_append_right _ (List.mem_cons_self u l2)
  have hstoreC : σ.store c.current = c := by rw [hcc, ← hcu]
  have cmin : ∀ v ∈ σ.working, dlt ((σ.store v).distance) c.distance = false := by
    intro v hv
    rw [hwdec] at hv
    rcases List.mem_append.mp hv with hv | hv
    · exact dlt_asymm (hl1 v hv)
    · rcases List.mem_cons.mp hv with hv | hv
      · subst hv; rw [← hcu]; exact dlt_irrefl _
      · exact hl2 v hv
  have cfin : Reach g start c.current := by
    apply hinv.reachWork c.current cmem
    rw [hstoreC, hd]
    simp
  have hcs : ∀ s ∈ out, dlt c.distance s.distance = false := by
    intro s hs
    have hb := hinv.boundary s hs c.current cmem
    rw [hstoreC] at hb
    exact hb
  have hw'sub : σ'.working ⊆ σ.working := by
    rw [herase]; exact List.erase_subset _ _
  have hw'mem : ∀ v, v ∈ σ'.working ↔ v ≠ c.current ∧ v ∈ σ.working := by
    intro v; rw [herase]; exact hinv.wNodup.mem_erase_iff
  constructor
  · -- storeKey
    intro v
    rw [hstore', relax_fold_current]
    exact hinv.storeKey v
  · -- wNodup
    rw [herase]; exact hinv.wNodup.erase _
  · -- wKeys
    intro v hv; exact hinv.wKeys v (hw'sub hv)
  · -- partition
    intro v hcont
    rcases hinv.partition v hcont with hv | hv
    · by_cases hvc : v = c.current
      · subst hvc
        right
        rw [List.map_append]
        exact List.mem_append_right _ (by simp)
      · exact Or.inl ((hw'mem v).mpr ⟨hvc, hv⟩)
    · right
      rw [List.map_append]
      exact List.mem_append_left _ hv
  · -- outNotWorking
    intro s hs
    rcases List.mem_append.mp hs with hs | hs
    · exact fun hx => hinv.outNotWorking s hs (hw'sub hx)
    · have hsc : s = c := by simpa using hs
      subst hsc
      intro hx
      exact ((hw'mem s.current).mp hx).1 rfl
  · -- outNodup
    rw [List.map_append]
    refine List.Nodup.append hinv.outNodup (by simp) ?_
    intro a ha hb
    simp only [List.map_cons, List.map_nil, List.mem_singleton] at hb
    subst hb
    obtain ⟨s, hs, hsc⟩ := List.mem_map.mp ha
    exact hinv.outNotWorking s hs (hsc ▸ cmem)
  · -- outFinite
    intro s hs
    rcases List.mem_append.mp hs with hs | hs
    · exact hinv.outFinite s hs
    · have hsc : s = c := by simpa using hs
      subst hsc
      rw [hd]
      simp
  · -- sorted
    rw [List.pairwise_append]
    refine ⟨hinv.sorted, by simp, ?_⟩
    intro a ha b hb
    have hbc : b = c := by simpa using hb
    subst hbc
    exact hcs a ha
  · -- boundary
    intro s hs v hv
    have hv' := hw'sub hv
    rw [hstore']
    rcases relax_fold_outcome c.current d (σ.working.erase c.current)
        (g.outEdges c.current) σ.store v with heq | ⟨e, he, hev, hvw, hdist, hprev⟩
    · rw [heq]
      rcases List.mem_append.mp hs with hs | hs
      · exact hinv.boundary s hs v hv'
      · have hsc : s = c := by simpa using hs
        subst hsc
        exact cmin v hv'
    · rw [hdist]
      have hwpos : 0 < e.weight := (wf_outEdges g hwf c.current e he).2.2.1
      have hstep : dlt (some (d + e.weight)) (some d) = false := by
        rw [dlt_some_some]
        exact decide_eq_false (not_lt.mpr (le_of_lt (lt_add_of_pos_right d hwpos)))
      rcases List.mem_append.mp hs with hs | hs
      · have h1 : dlt (some d) s.distance = false := by
          rw [← hd]; exact hcs s hs
        exact not_dlt_trans h1 hstep
      · have hsc : s = c := by simpa using hs
        subst hsc
        rw [hd]
        exact hstep
  · -- predWork
    intro v hv p hp
    have hv' := hw'sub hv
    rw [hstore'] at hp ⊢
    rcases relax_fold_outcome c.current d (σ.working.erase c.current)
        (g.outEdges c.current) σ.store v with heq | ⟨e, he, hev, hvw, hdist, hprev⟩
    · rw [heq] at hp ⊢
      obtain ⟨s, hs, hsc, dp, w, hsd, hedge, hvd⟩ := hinv.predWork v hv' p hp
      exact ⟨s, List.mem_append_left _ hs, hsc, dp, w, hsd, hedge, hvd⟩
    · rw [hprev] at hp
      have hpc : c.current = p := Option.some_inj.mp hp
      have hedge : edgeIn g c.current e.endN e.weight :=
        (wf_outEdges g hwf c.current e he).2.2.2
      refine ⟨c, List.mem_append_right _ (by simp), hpc, d, e.weight, hd, ?_, ?_⟩
      · rw [hpc, hev] at hedge
        exact hedge
      · exact hdist
  · -- predOut
    intro pre s post hdec p hp
    rcases snoc_decomp c pre out s post hdec with
      ⟨hpre, hsc, hpost⟩ | ⟨post', hpost, hout⟩
    · subst hsc
      have hprev : (σ.store s.current).previous = some p := by
        rw [hstoreC]; exact hp
      obtain ⟨s', hs', hcur, dp, w, hsd, hedge, hcd⟩ :=
        hinv.predWork s.current cmem p hprev
      rw [hstoreC] at hcd
      exact ⟨s', hpre ▸ hs', hcur, dp, w, hsd, hedge, hcd⟩
    · exact hinv.predOut pre s post' hout p hp
  · -- succ
    intro s hs e he
    rcases List.mem_append.mp hs with hs | hs
    · rcases hinv.succ s hs e he with hy | ⟨hw1, hf1⟩
      · left
        rw [List.map_append]
        exact List.mem_append_left _ hy
      · by_cases hec : e.endN = c.current
        · left
          rw [List.map_append, hec]
          exact List.mem_append_right _ (by simp)
        · right
          refine ⟨(hw'mem _).mpr ⟨hec, hw1⟩, ?_⟩
          rw [hstore']
          exact relax_fold_finite _ _ _ _ _ _ hf1
    · have hsc : s = c := by simpa using hs
      subst hsc
      by_cases hew : e.endN ∈ σ'.working
      · right
        refine ⟨hew, ?_⟩
        rw [hstore']
        apply relax_fold_succ_finite _ _ _ _ _ e he
        rw [herase] at hew
        exact hew
      · have hcont : g.containsNode e.endN = true :=
          (wf_outEdges g hwf s.current e he).2.1
        rcases hinv.partition e.endN hcont with hw1 | hy
        · have hec : e.endN = s.current := by
            by_contra hne
            exact hew ((hw'mem _).mpr ⟨hne, hw1⟩)
          left
          rw [List.map_append, hec]
          exact List.mem_append_right _ (by simp)
        · left
          rw [List.map_append]
          exact List.mem_append_left _ hy
  · -- reachOut
    intro s hs
    rcases List.mem_append.mp hs with hs | hs
    · exact hinv.reachOut s hs
    · have hsc : s = c := by simpa using hs
      subst hsc
      exact cfin
  · -- reachWork
    intro v hv hfin
    have hv' := hw'sub hv
    rw [hstore'] at hfin
    rcases relax_fold_outcome c.current d (σ.working.erase c.current)
        (g.outEdges c.current) σ.store v with heq | ⟨e, he, hev, hvw, hdist, hprev⟩
    · rw [heq] at hfin
      exact hinv.reachWork v hv' hfin
    · have hedge : edgeIn g c.current e.endN e.weight :=
        (wf_outEdges g hwf c.current e he).2.2.2
      rw [← hev]
      exact Relation.ReflTransGen.tail cfin ⟨e.weight, hedge⟩
  · -- startDist
    intro hs
    have hs' := hw'sub hs
    rw [hstore']
    exact relax_fold_finite _ _ _ _ _ _ (hinv.startDist hs')

theorem scanMin_min (working : List T)
    (store : T → dijkstra_iteration_step T W) (c : dijkstra_iteration_step T W)
    (h : scanMin working store = some c) :
    ∀ v ∈ working, dlt ((store v).distance) c.distance = false := by
  obtain ⟨l1, u, l2, hdec, hcu, hl1, hl2⟩ := scanMin_spec working store c h
  intro v hv
  rw [hdec] at hv
  rcases List.mem_append.mp hv with hv | hv
  · exact dlt_asymm (hl1 v hv)
  · rcases List.mem_cons.mp hv with hv | hv
    · subst hv; rw [hcu]; exact dlt_irrefl _
    · exact hl2 v hv

theorem scanMin_unique (working : List T)
    (store : T → dijkstra_iteration_step T W) (v0 : T) (hv0 : v0 ∈ working)
    (hmin : ∀ v ∈ working, v ≠ v0 →
      dlt ((store v0).distance) ((store v).distance) = true) :
    scanMin working store = some (store v0) := by
  rcases hs : scanMin working store with _ | c
  · rw [scanMin_none] at hs
    rw [hs] at hv0
    exact absurd hv0 (List.not_mem_nil v0)
  · obtain ⟨l1, u, l2, hdec, hcu, hl1, hl2⟩ := scanMin_spec working store c hs
    have hu : u ∈ working := by
      rw [hdec]; exact List.mem_append_right _ (List.mem_cons_self u l2)
    by_cases huv : u = v0
    · rw [hcu, huv]
    · have h1 := hmin u hu huv
      have h2 := scanMin_min working store c hs v0 hv0
      rw [hcu] at h2
      rw [h1] at h2
      exact Bool.noConfusion h2

/-- Facts holding of the complete sequence of yielded steps obtained by
running out any state satisfying the invariant: sortedness, the predecessor
contract, uniqueness-plus-finiteness of yielded nodes, reachability of every
yielded node, and — once the fuel covers the working set — completeness for
every reachable node. -/
theorem drun_DInv_facts (g : graph T W) (start : T) (hwf : g.WellFormed)
    (hs : g.containsNode start = true) :
    ∀ (n : Nat) (σ : dijkstra_state T W)
      (out : List (dijkstra_iteration_step T W)), DInv g start out σ →
      ((out ++ drun g σ n).Pairwise
          (fun a b => dlt b.distance a.distance = false) ∧
        (∀ pre s post, out ++ drun g σ n = pre ++ s :: post →
          ∀ p, s.previous = some p →
          ∃ s' ∈ pre, s'.current = p ∧ ∃ dp w, s'.distance = some dp ∧
            edgeIn g p s.current w ∧ s.distance = some (dp + w)) ∧
        ((out ++ drun g σ n).map (fun s => s.current)).Nodup ∧
        (∀ s ∈ out ++ drun g σ n, s.distance ≠ none) ∧
        (∀ s ∈ out ++ drun g σ n, Reach g start s.current) ∧
        (σ.working.length < n → ∀ v, Reach g start v →
          v ∈ (out ++ drun g σ n).map (fun s => s.current))) := by
  intro n
  induction n with
  | zero =>
    intro σ out hinv
    simp only [drun, List.append_nil]
    exact ⟨hinv.sorted, hinv.predOut, hinv.outNodup, hinv.outFinite,
      hinv.reachOut, fun hlen => absurd hlen (by omega)⟩
  | succ n ih =>
    intro σ out hinv
    rcases hiter : iter g σ with ⟨o, σ'⟩
    cases o with
    | none =>
      simp only [drun, hiter, List.append_nil]
      refine ⟨hinv.sorted, hinv.predOut, hinv.outNodup, hinv.outFinite,
        hinv.reachOut, ?_⟩
      intro _ v hreach
      rcases iter_none_inv g σ σ' hiter with ⟨hscan, -⟩ | ⟨c, hscan, hcinf, -⟩
      · -- the working set is empty: every node of the graph has been yielded
        have hwempty : σ.working = [] := (scanMin_none _ _).mp hscan
        have hcont : g.containsNode v = true :=
          reach_contains g hwf start v hs hreach
        rcases hinv.partition v hcont with hv | hv
        · rw [hwempty] at hv
          exact absurd hv (List.not_mem_nil v)
        · exact hv
      · -- the minimum is infinite: every remaining node is unreachable
        have hallinf : ∀ w ∈ σ.working, (σ.store w).distance = none := by
          intro w hw
          have := scanMin_min _ _ _ hscan w hw
          rw [hcinf] at this
          exact dlt_none this
        have hstart : start ∈ out.map (fun s => s.current) := by
          by_cases hsw : start ∈ σ.working
          · exact absurd (hallinf start hsw) (hinv.startDist hsw)
          · rcases hinv.partition start hs with h1 | h1
            · exact absurd h1 hsw
            · exact h1
        clear hiter
        induction hreach with
        | refl => exact hstart
        | tail hr hstep ihr =>
          obtain ⟨s', hs', hcur⟩ := List.mem_map.mp ihr
          obtain ⟨w, hw⟩ := hstep
          have hedge := edgeIn_outEdges g hw
          rcases hinv.succ s' hs' _ (hcur ▸ hedge) with hy | ⟨hww, hfin⟩
          · exact hy
          · exact absurd (hallinf _ hww) hfin
    | some c =>
      have hinv' := iter_preserves_DInv g start hwf out σ c σ' hinv hiter
      obtain ⟨hscan, -, herase, -⟩ := iter_some_inv g σ c σ' hiter
      have cmem : c.current ∈ σ.working :=
        scanMin_mem_working σ hinv.storeKey c hscan
      have hrw : out ++ drun g σ (n + 1) = (out ++ [c]) ++ drun g σ' n := by
        simp only [drun, hiter, List.append_assoc, List.cons_append,
          List.nil_append]
      obtain ⟨f1, f2, f3, f4, f5, f6⟩ := ih σ' (out ++ [c]) hinv'
      rw [hrw]
      refine ⟨f1, f2, f3, f4, f5, ?_⟩
      intro hlen
      apply f6
      have hpos : 0 < σ.working.length := List.length_pos_of_mem cmem
      rw [herase, List.length_erase_of_mem cmem]
      omega

theorem drun_cons (g : graph T W) (σ : dijkstra_state T W)
    (c : dijkstra_iteration_step T W) (σ' : dijkstra_state T W) (n : Nat)
    (h : iter g σ = (some c, σ')) :
    drun g σ (n + 1) = c :: drun g σ' n := by
  simp only [drun, h]

/-- Reduction of `iter` at a state whose scan selects a finite-distance
entry. -/
theorem iter_reduce (g : graph T W) (σ : dijkstra_state T W)
    (c : dijkstra_iteration_step T W) (d : W)
    (hscan : scanMin σ.working σ.store = some c) (hd : c.distance = some d) :
    iter g σ = (some c,
      ⟨(g.outEdges c.current).foldl
          (relax_edge c.current d (σ.working.erase c.current)) σ.store,
        σ.working.erase c.current⟩) := by
  unfold iter
  simp only [hscan, hd]

/-- The first yielded step of a freshly constructed traversal is the source
node at distance `0` with no previous node. -/
theorem dijkstra_output_cons (g : graph T W) (start : T)
    (hc : g.containsNode start = true) :
    ∃ rest, dijkstra_output g start =
      (⟨start, some 0, none⟩ : dijkstra_iteration_step T W) :: rest := by
  have hinit : dijkstra_init g start = Except.ok
      ⟨fun v => ⟨v, if v = start then some 0 else none, none⟩,
        g.nodes.map (fun p => p.1)⟩ := by
    unfold dijkstra_init
    rw [if_pos hc]
  have hstore0 : (fun v => (⟨v, if v = start then some 0 else none, none⟩ :
      dijkstra_iteration_step T W)) start = ⟨start, some 0, none⟩ := by
    simp
  have hscan : scanMin (g.nodes.map (fun p => p.1))
      (fun v => (⟨v, if v = start then some 0 else none, none⟩ :
        dijkstra_iteration_step T W)) =
      some ⟨start, some 0, none⟩ := by
    rw [← hstore0]
    apply scanMin_unique _ _ start ((containsNode_iff_mem g start).mp hc)
    intro v _ hne
    simp only []
    rw [if_neg hne]
    simp [dlt]
  have hiter := iter_reduce g
    ⟨fun v => (⟨v, if v = start then some 0 else none, none⟩ :
        dijkstra_iteration_step T W),
      g.nodes.map (fun p => p.1)⟩
    ⟨start, some 0, none⟩ 0 hscan rfl
  have houtput : dijkstra_output g start = drun g
      ⟨fun v => (⟨v, if v = start then some 0 else none, none⟩ :
          dijkstra_iteration_step T W),
        g.nodes.map (fun p => p.1)⟩
      ((g.nodes.map (fun p => p.1)).length + 1) := by
    unfold dijkstra_output
    rw [hinit]
  exact ⟨_, by rw [houtput]; exact drun_cons g _ _ _ _ hiter⟩

theorem getNode?_none_iff (g : graph T W) (v : T) :
    g.getNode? v = none ↔ g.containsNode v = false := by
  constructor
  · intro h
    by_cases hc : g.containsNode v = true
    · obtain ⟨n, hn⟩ := getNode?_some_of_contains g v hc
      rw [h] at hn
      exact Option.noConfusion hn
    · exact Bool.eq_false_iff.mpr hc
  · intro h
    rcases hn : g.getNode? v with _ | n
    · rfl
    · rw [contains_of_getNode?_some g v n hn] at h
      exact Bool.noConfusion h

/-- Lookup after a keyed update: the updated key sees the function applied,
all other keys are untouched. -/
theorem getNode?_updateNode (g : graph T W) (v : T)
    (f : graph_node T W → graph_node T W) (u : T) :
    (g.updateNode v f).getNode? u =
      if u = v then (g.getNode? u).map f else g.getNode? u := by
  rcases g with ⟨l⟩
  unfold graph.updateNode graph.getNode?
  simp only
  induction l with
  | nil => simp [List.find?]
  | cons p l ih =>
    by_cases hpu : p.1 = u
    · by_cases hpv : p.1 = v
      · have huv : u = v := by rw [← hpu, hpv]
        rw [if_pos huv]
        simp only [List.map_cons, if_pos hpv]
        rw [List.find?_cons_of_pos _ (by simp [hpu]),
          List.find?_cons_of_pos _ (by simp [hpu])]
        simp
      · have huv : ¬ u = v := fun hx => hpv (by rw [hpu, hx])
        rw [if_neg huv]
        simp only [List.map_cons, if_neg hpv]
        rw [List.find?_cons_of_pos _ (by simp [hpu]),
          List.find?_cons_of_pos _ (by simp [hpu])]
    · by_cases hpv : p.1 = v
      · simp only [List.map_cons, if_pos hpv]
        rw [List.find?_cons_of_neg _ (by simp [hpu]),
          List.find?_cons_of_neg _ (by simp [hpu])]
        exact ih
      · simp only [List.map_cons, if_neg hpv]
        rw [List.find?_cons_of_neg _ (by simp [hpu]),
          List.find?_cons_of_neg _ (by simp [hpu])]
        exact ih

theorem dijkstra_output_eq (g : graph T W) (start : T)
    (σ : dijkstra_state T W) (h : dijkstra_init g start = Except.ok σ) :
    dijkstra_output g start = drun g σ (σ.working.length + 1) := by
  unfold dijkstra_output
  rw [h]

theorem dijkstra_init_ok_of_contains (g : graph T W) (start : T)
    (hs : g.containsNode start = true) :
    ∀ e, dijkstra_init g start ≠ Except.error e := by
  intro e h
  unfold dijkstra_init at h
  rw [if_pos hs] at h
  exact Except.noConfusion h

/-! ## Claim theorems -/

/-- C1: for every graph with positive edge weights (part of `WellFormed`, as
established by the `graph_edge` constructor) and every source node present in
it, the sequence of steps yielded by the shortest-path traversal run to
exhaustion has non-decreasing distances (no later step is strictly closer
than an earlier one), and its first element is the source node itself with
distance `0` and no predecessor. -/
theorem dijkstra_output_first_and_sorted (g : graph T W) (start : T)
    (hwf : g.WellFormed) (hs : g.containsNode start = true) :
    (dijkstra_output g start).head? =
      some (⟨start, some 0, none⟩ : dijkstra_iteration_step T W) ∧
    (dijkstra_output g start).Pairwise
      (fun a b => dlt b.distance a.distance = false) := by
  constructor
  · obtain ⟨rest, hr⟩ := dijkstra_output_cons g start hs
    rw [hr]
    rfl
  · rcases hinit : dijkstra_init g start with e | σ
    · exact absurd hinit (dijkstra_init_ok_of_contains g start hs e)
    · have hinv := dijkstra_init_DInv g start hwf σ hinit
      have hfacts := drun_DInv_facts g start hwf hs (σ.working.length + 1) σ [] hinv
      rw [dijkstra_output_eq g start σ hinit]
      simpa using hfacts.1

/-- Witness for C1 on the concrete graph `gEx` from source `0`. -/
theorem dijkstra_output_first_and_sorted_witness :
    gEx.WellFormed ∧ gEx.containsNode 0 = true ∧
    ((dijkstra_output gEx 0).head? =
        some (⟨0, some 0, none⟩ : dijkstra_iteration_step ℕ ℤ) ∧
      (dijkstra_output gEx 0).Pairwise
        (fun a b => dlt b.distance a.distance = false)) :=
  ⟨by decide, by decide,
    dijkstra_output_first_and_sorted gEx 0 (by decide) (by decide)⟩

/-- C2: every yielded step that carries a predecessor `p` was produced along a
real edge of the graph: the graph contains an edge from `p` to the step's
node, the step's distance is the distance yielded for `p` plus that edge's
weight, and `p` itself was yielded as the node of an earlier step of the same
traversal (it occurs in the strict prefix `pre` preceding the step). -/
theorem dijkstra_output_predecessor_contract (g : graph T W) (start : T)
    (hwf : g.WellFormed) (hs : g.containsNode start = true) :
    ∀ pre s post, dijkstra_output g start = pre ++ s :: post →
      ∀ p, s.previous = some p →
      ∃ s' ∈ pre, s'.current = p ∧ ∃ dp w, s'.distance = some dp ∧
        edgeIn g p s.current w ∧ s.distance = some (dp + w) := by
  rcases hinit : dijkstra_init g start with e | σ
  · exact absurd hinit (dijkstra_init_ok_of_contains g start hs e)
  · have hinv := dijkstra_init_DInv g start hwf σ hinit
    have hfacts := drun_DInv_facts g start hwf hs (σ.working.length + 1) σ [] hinv
    rw [dijkstra_output_eq g start σ hinit]
    intro pre s post hdec p hp
    exact hfacts.2.1 pre s post (by simpa using hdec) p hp

/-- Witness for C2: in the traversal of `gEx` from `0`, the step for node `1`
carries predecessor `0`, yielded earlier, with `distance 1 = 0 + weight 1`. -/
theorem dijkstra_output_predecessor_contract_witness :
    gEx.WellFormed ∧ gEx.containsNode 0 = true ∧
    dijkstra_output gEx 0 =
      [(⟨0, some 0, none⟩ : dijkstra_iteration_step ℕ ℤ)] ++
        (⟨1, some 1, some 0⟩ : dijkstra_iteration_step ℕ ℤ) ::
        [(⟨2, some 2, some 1⟩ : dijkstra_iteration_step ℕ ℤ)] ∧
    (∃ s' ∈ [(⟨0, some 0, none⟩ : dijkstra_iteration_step ℕ ℤ)],
      s'.current = 0 ∧ ∃ dp w, s'.distance = some dp ∧
        edgeIn gEx 0 (⟨1, some 1, some 0⟩ :
          dijkstra_iteration_step ℕ ℤ).current w ∧
        (⟨1, some 1, some 0⟩ :
          dijkstra_iteration_step ℕ ℤ).distance = some (dp + w)) :=
  ⟨by decide, by decide, by decide,
    dijkstra_output_predecessor_contract gEx 0 (by decide) (by decide)
      [⟨0, some 0, none⟩] ⟨1, some 1, some 0⟩ [⟨2, some 2, some 1⟩]
      (by decide) 0 rfl⟩

/-- C3: a traversal run to exhaustion yields each node reachable from the
source (the source included) exactly once, and never yields an unreachable
node; running out of reachable nodes is normal termination of the embedding's
total run function, not an error. -/
theorem dijkstra_output_reachable_exactly_once (g : graph T W) (start : T)
    (hwf : g.WellFormed) (hs : g.containsNode start = true) :
    ((dijkstra_output g start).map (fun s => s.current)).Nodup ∧
    ∀ v, v ∈ (dijkstra_output g start).map (fun s => s.current) ↔
      Reach g start v := by
  rcases hinit : dijkstra_init g start with e | σ
  · exact absurd hinit (dijkstra_init_ok_of_contains g start hs e)
  · have hinv := dijkstra_init_DInv g start hwf σ hinit
    have hfacts := drun_DInv_facts g start hwf hs (σ.working.length + 1) σ [] hinv
    rw [dijkstra_output_eq g start σ hinit]
    simp only [List.nil_append] at hfacts
    refine ⟨hfacts.2.2.1, ?_⟩
    intro v
    constructor
    · intro hv
      obtain ⟨s, hsmem, hcur⟩ := List.mem_map.mp hv
      exact hcur ▸ hfacts.2.2.2.2.1 s hsmem
    · intro hreach
      exact hfacts.2.2.2.2.2 (by omega) v hreach

/-- Witness for C3 on `gEx` from source `0`: node `2` is yielded and
reachable; the isolated node `3` would fall on the unreachable side. -/
theorem dijkstra_output_reachable_exactly_once_witness :
    gEx.WellFormed ∧ gEx.containsNode 0 = true ∧
    ((dijkstra_output gEx 0).map (fun s => s.current)).Nodup ∧
    (2 ∈ (dijkstra_output gEx 0).map (fun s => s.current) ↔ Reach gEx 0 2) :=
  ⟨by decide, by decide,
    (dijkstra_output_reachable_exactly_once gEx 0 (by decide) (by decide)).1,
    (dijkstra_output_reachable_exactly_once gEx 0 (by decide) (by decide)).2 2⟩

/-- C4: `create_link(start, end, weight)` fails with `UnknownNode` when either
endpoint name is absent, fails with `InvalidWeight` when `weight ≤ 0`, fails
with `DuplicateEdge` when an edge from start to end already exists (checks in
that order, as in the source), and otherwise succeeds, appending exactly one
new edge of that weight to the start node's outgoing collection and the same
edge to the end node's incoming collection, leaving every other node — and,
for distinct endpoints, the remaining collections of the two endpoint nodes —
untouched. -/
theorem create_link_cases (g : graph T W) (s e : T) (w : W) :
    ((g.containsNode s = false ∨ g.containsNode e = false) →
      g.create_link s e w = (g, some GraphError.UnknownNode)) ∧
    (g.containsNode s = true → g.containsNode e = true → w ≤ 0 →
      g.create_link s e w = (g, some GraphError.InvalidWeight)) ∧
    (g.containsNode s = true → g.containsNode e = true → 0 < w →
      (∃ ns, g.getNode? s = some ns ∧ ∃ ed ∈ ns.out_edges, ed.endN = e) →
      g.create_link s e w = (g, some GraphError.DuplicateEdge)) ∧
    (g.containsNode s = true → g.containsNode e = true → 0 < w →
      (∀ ns, g.getNode? s = some ns → ∀ ed ∈ ns.out_edges, ed.endN ≠ e) →
      (g.create_link s e w).2 = none ∧
      (∀ ns, g.getNode? s = some ns → ∃ ns',
        (g.create_link s e w).1.getNode? s = some ns' ∧
        ns'.out_edges = ns.out_edges ++ [⟨s, e, w⟩] ∧
        (s ≠ e → ns'.in_edges = ns.in_edges)) ∧
      (∀ ne, g.getNode? e = some ne → ∃ ne',
        (g.create_link s e w).1.getNode? e = some ne' ∧
        ne'.in_edges = ne.in_edges ++ [⟨s, e, w⟩] ∧
        (s ≠ e → ne'.out_edges = ne.out_edges)) ∧
      (∀ u, u ≠ s → u ≠ e → (g.create_link s e w).1.getNode? u =
        g.getNode? u)) := by
  refine ⟨?_, ?_, ?_, ?_⟩
  · intro hc
    unfold graph.create_link
    rcases hs : g.getNode? s with _ | ns
    · rfl
    · rcases he : g.getNode? e with _ | ne
      · rfl
      · exfalso
        rcases hc with hc | hc
        · rw [contains_of_getNode?_some g s ns hs] at hc
          exact Bool.noConfusion hc
        · rw [contains_of_getNode?_some g e ne he] at hc
          exact Bool.noConfusion hc
  · intro hcs hce hw
    obtain ⟨ns, hns⟩ := getNode?_some_of_contains g s hcs
    obtain ⟨ne, hne⟩ := getNode?_some_of_contains g e hce
    unfold graph.create_link
    rw [hns, hne]
    simp [hw]
  · intro hcs hce hw hdup
    obtain ⟨ns, hns, ed, hed, hede⟩ := hdup
    obtain ⟨ne, hne⟩ := getNode?_some_of_contains g e hce
    have hany : (ns.out_edges.any fun ed => decide (ed.endN = e)) = true :=
      List.any_eq_true.mpr ⟨ed, hed, decide_eq_true hede⟩
    unfold graph.create_link
    rw [hns, hne]
    simp [not_le.mpr hw, hany]
  · intro hcs hce hw hnodup
    obtain ⟨ns, hns⟩ := getNode?_some_of_contains g s hcs
    obtain ⟨ne, hne⟩ := getNode?_some_of_contains g e hce
    have hany : ns.out_edges.any (fun ed => decide (ed.endN = e)) = false := by
      rw [List.any_eq_false]
      intro ed hed
      simpa using hnodup ns hns ed hed
    have hres : g.create_link s e w =
        ((g.updateNode s (fun n =>
            { n with out_edges := n.out_edges ++ [⟨s, e, w⟩] })).updateNode e
          (fun n => { n with in_edges := n.in_edges ++ [⟨s, e, w⟩] }), none) := by
      unfold graph.create_link
      rw [hns, hne]
      simp [not_le.mpr hw, hany]
    rw [hres]
    refine ⟨rfl, ?_, ?_, ?_⟩
    · intro ns0 hns0
      rw [hns] at hns0
      have hns0' : ns = ns0 := Option.some_inj.mp hns0
      subst hns0'
      rw [getNode?_updateNode, getNode?_updateNode]
      by_cases hse : s = e
      · rw [if_pos hse, if_pos rfl, hns]
        exact ⟨_, rfl, rfl, fun hne' => absurd hse hne'⟩
      · rw [if_neg hse, if_pos rfl, hns]
        exact ⟨_, rfl, rfl, fun _ => rfl⟩
    · intro ne0 hne0
      rw [hne] at hne0
      have hne0' : ne = ne0 := Option.some_inj.mp hne0
      subst hne0'
      rw [getNode?_updateNode, if_pos rfl, getNode?_updateNode]
      by_cases hse : e = s
      · rw [if_pos hse, hse, hns]
        have hes : s = e := hse.symm
        rw [hes] at hns
        rw [hns] at hne
        have : ns = ne := Option.some_inj.mp hne
        subst this
        exact ⟨_, rfl, rfl, fun hne' => absurd rfl hne'⟩
      · rw [if_neg hse, hne]
        exact ⟨_, rfl, rfl, fun _ => rfl⟩
    · intro u hus hue
      rw [getNode?_updateNode, if_neg hue, getNode?_updateNode, if_neg hus]

/-- Witness for C4: linking `2 → 3` in `gEx` with weight `0` fails with
`InvalidWeight`. -/
theorem create_link_cases_witness :
    gEx.containsNode 2 = true ∧ gEx.containsNode 3 = true ∧ ((0 : ℤ) ≤ 0) ∧
    gEx.create_link 2 3 0 = (gEx, some GraphError.InvalidWeight) :=
  ⟨by decide, by decide, le_refl 0,
    (create_link_cases gEx 2 3 0).2.1 (by decide) (by decide) (le_refl 0)⟩

/-- C5: constructing the traversal's working set for a source name absent from
the graph fails with `UnknownNode` before any iteration begins (this is the
check performed when `dijkstra_traversal::begin` constructs the iterator, and
eagerly by the Kotlin `shortestPath` before the lazy sequence is returned);
for a present source the construction succeeds, and the iteration functions
`iter` / `drun` are total — no error can arise mid-traversal. -/
theorem dijkstra_init_unknown_source (g : graph T W) (start : T) :
    (g.containsNode start = false →
      dijkstra_init g start = Except.error GraphError.UnknownNode) ∧
    (g.containsNode start = true →
      ∃ σ, dijkstra_init g start = Except.ok σ) := by
  constructor
  · intro h
    unfold dijkstra_init
    rw [if_neg]
    simp [h]
  · intro h
    unfold dijkstra_init
    rw [if_pos h]
    exact ⟨_, rfl⟩

/-- Witness for C5 on `gEx`: source `9` is absent and fails at construction,
source `0` is present and constructs successfully. -/
theorem dijkstra_init_unknown_source_witness :
    gEx.containsNode 9 = false ∧
    dijkstra_init gEx 9 = Except.error GraphError.UnknownNode ∧
    gEx.containsNode 0 = true ∧
    (∃ σ, dijkstra_init gEx 0 = Except.ok σ) :=
  ⟨by decide, (dijkstra_init_unknown_source gEx 9).1 (by decide),
    by decide, (dijkstra_init_unknown_source gEx 0).2 (by decide)⟩

/-- C6 (amended): each selection scan returns an entry of minimum distance,
but on ties the two implementations differ: the C++ scan (strict `<`) keeps
the entry of the FIRST element attaining the minimum — everything scanned
before it is strictly farther — while the Kotlin scan (`<=`) keeps the entry
of the LAST element attaining the minimum — everything scanned after it is
strictly farther. -/
theorem scan_tiebreak_first_vs_last (working : List T)
    (store : T → dijkstra_iteration_step T W)
    (c : dijkstra_iteration_step T W) :
    (scanMin working store = some c →
      ∃ l1 u l2, working = l1 ++ u :: l2 ∧ c = store u ∧
        (∀ v ∈ l1, dlt c.distance (store v).distance = true) ∧
        (∀ v ∈ l2, dlt (store v).distance c.distance = false)) ∧
    (scanMinKt working store = some c →
      ∃ l1 u l2, working = l1 ++ u :: l2 ∧ c = store u ∧
        (∀ v ∈ l1, dle c.distance (store v).distance = true) ∧
        (∀ v ∈ l2, dlt c.distance (store v).distance = true)) :=
  ⟨scanMin_spec working store c, scanMinKt_spec working store c⟩

/-- Counterexample to C6 as stated: on a working set of two entries tied for
the minimum, the Kotlin selection loop keeps the LAST entry encountered, not
the first; the C++ loop keeps the first. -/
theorem scan_tiebreak_counterexample :
    (stTie 0).distance = (stTie 1).distance ∧
    scanMinKt [0, 1] stTie = some (stTie 1) ∧
    ¬ scanMinKt [0, 1] stTie = some (stTie 0) ∧
    scanMin [0, 1] stTie = some (stTie 0) := by
  decide

/-- Witness for the amended C6 at the tied two-entry working set. -/
theorem scan_tiebreak_first_vs_last_witness :
    (∃ l1 u l2, ([0, 1] : List ℕ) = l1 ++ u :: l2 ∧ stTie 0 = stTie u ∧
      (∀ v ∈ l1, dlt (stTie 0).distance (stTie v).distance = true) ∧
      (∀ v ∈ l2, dlt (stTie v).distance (stTie 0).distance = false)) ∧
    (∃ l1 u l2, ([0, 1] : List ℕ) = l1 ++ u :: l2 ∧ stTie 1 = stTie u ∧
      (∀ v ∈ l1, dle (stTie 1).distance (stTie v).distance = true) ∧
      (∀ v ∈ l2, dlt (stTie 1).distance (stTie v).distance = true)) :=
  ⟨(scan_tiebreak_first_vs_last [0, 1] stTie (stTie 0)).1 (by decide),
    (scan_tiebreak_first_vs_last [0, 1] stTie (stTie 1)).2 (by decide)⟩

/-- C7: consuming `k` steps executes exactly `k` increments of the algorithm
(`dijkstra_take` applies `iter` once per requested step and discards the
rest), and the first `k` yielded steps are exactly the length-`k` prefix of
the sequence a full run to exhaustion would produce — independent of whether
the consumer later stops or continues. -/
theorem dijkstra_take_eq_take_output (g : graph T W) (start : T) (k : Nat) :
    dijkstra_take g start k = (dijkstra_output g start).take k := by
  unfold dijkstra_take dijkstra_output
  rcases hinit : dijkstra_init g start with err | σ
  · simp
  · show drun g σ k = (drun g σ (σ.working.length + 1)).take k
    by_cases hk : k ≤ σ.working.length + 1
    · exact drun_take g k _ σ hk
    · have hkey : ∀ v, (σ.store v).current = v := by
        unfold dijkstra_init at hinit
        by_cases hc : g.containsNode start = true
        · rw [if_pos hc] at hinit
          injection hinit with h
          subst h
          intro v
          rfl
        · rw [if_neg hc] at hinit
          exact Except.noConfusion hinit
      have h1 : drun g σ k = drun g σ (σ.working.length + 1) :=
        drun_fuel g (σ.working.length + 1) k σ hkey (by omega) (by omega)
      rw [h1]
      have h2 : (drun g σ (σ.working.length + 1)).length ≤ k :=
        le_trans (drun_length_le g _ σ) (by omega)
      rw [List.take_of_length_le h2]

/-- C8: a yielded step is immutable.  `iter` erases the selected node from the
working set before yielding its entry, and relaxation only updates entries
whose node is still a key of the working set; hence once a node has left the
working set — in particular once its entry has been yielded — no number of
further increments ever modifies its stored entry (neither its distance nor
its predecessor). -/
theorem yielded_entry_never_modified (g : graph T W) (σ : dijkstra_state T W)
    (v : T) (n : Nat) (hv : v ∉ σ.working) :
    (dstateRun g σ n).store v = σ.store v :=
  dstateRun_store_frame g σ v hv n

/-- Witness for C8: node `5` is outside the working set of `sEx`, and three
further increments leave its entry untouched. -/
theorem yielded_entry_never_modified_witness :
    (5 ∉ sEx.working) ∧ (dstateRun gEx sEx 3).store 5 = sEx.store 5 :=
  ⟨by decide, yielded_entry_never_modified gEx sEx 5 3 (by decide)⟩

/-- C9: teardown of the node/edge reference cycle.  The strong-reference
relation of the object graph (graph → nodes → edges; the edge → node
back-references are `weak_ptr`s and hence not strong) is acyclic with depth
two, so ANY reclamation process that frees an object once all its strong
referrers are freed — which is exactly what reference counting does when the
graph is destroyed, in whatever order destructors run — reclaims every node
and every edge: no leaks.  Moreover no node holds a reference into another
node, and an edge holds no strong reference at all, so no collection keeps a
foreign object alive. -/
theorem graph_teardown_reclaims_all (g : graph T W)
    (F : graph_object T → Prop)
    (hclosed : ∀ o, graph_object_of g o →
      (∀ o', strongRef g o' o → F o') → F o) :
    (∀ o, graph_object_of g o → F o) ∧
    (∀ u v, ¬ strongRef g (graph_object.node u) (graph_object.node v)) ∧
    (∀ a b o, ¬ strongRef g (graph_object.edge a b) o) := by
  have hroot : F graph_object.root := by
    refine hclosed graph_object.root trivial ?_
    intro o' h
    cases o' <;> exact False.elim h
  have hnode : ∀ v, g.containsNode v = true → F (graph_object.node v) := by
    intro v hv
    refine hclosed (graph_object.node v) hv ?_
    intro o' h
    cases o' with
    | root => exact hroot
    | node u => exact False.elim h
    | edge a b => exact False.elim h
  refine ⟨?_, ?_, ?_⟩
  · intro o ho
    cases o with
    | root => exact hroot
    | node v => exact hnode v ho
    | edge a b =>
      refine hclosed (graph_object.edge a b) ho ?_
      intro o' h
      cases o' with
      | root => exact False.elim h
      | node u =>
        obtain ⟨n, hn, -⟩ := h
        exact hnode u (contains_of_getNode?_some g u n hn)
      | edge x y => exact False.elim h
  · intro u v h
    exact False.elim h
  · intro a b o h
    cases o <;> exact False.elim h

/-- Witness for C9 on `gEx`: the trivially closed freed-set reclaims the edge
object `0 → 1`. -/
theorem graph_teardown_reclaims_all_witness :
    graph_object_of gEx (graph_object.edge 0 1) ∧
    (fun _ => True : graph_object ℕ → Prop) (graph_object.edge 0 1) :=
  ⟨⟨⟨0, [e01, e02], []⟩, rfl, e01, List.mem_cons_self _ _, rfl, rfl⟩,
    (graph_teardown_reclaims_all gEx (fun _ => True)
      (fun _ _ _ => trivial)).1 (graph_object.edge 0 1)
      ⟨⟨0, [e01, e02], []⟩, rfl, e01, List.mem_cons_self _ _, rfl, rfl⟩⟩

/-- C10: `create_link` is atomic on failure — all its checks (and those of the
`graph_edge` constructor) run before any mutation, so whenever the call raises
an error the graph is exactly the one before the call. -/
theorem create_link_error_leaves_graph_unchanged (g : graph T W) (s e : T)
    (w : W) (err : GraphError)
    (h : (g.create_link s e w).2 = some err) :
    (g.create_link s e w).1 = g := by
  unfold graph.create_link at h ⊢
  rcases hs : g.getNode? s with _ | ns <;>
    rcases he : g.getNode? e with _ | ne
  · rfl
  · rfl
  · rfl
  · by_cases hw : w ≤ 0
    · simp [hw]
    · by_cases hdup : (ns.out_edges.any fun ed => decide (ed.endN = e)) = true
      · simp [hw, hdup]
      · exfalso
        rw [hs, he] at h
        have hdup' : ¬ ∃ x ∈ ns.out_edges, x.endN = e := by simpa using hdup
        simp [hw, hdup'] at h

/-- Witness for C10: the duplicate link `0 → 1` fails and leaves `gEx`
unchanged. -/
theorem create_link_error_leaves_graph_unchanged_witness :
    (gEx.create_link 0 1 3).2 = some GraphError.DuplicateEdge ∧
    (gEx.create_link 0 1 3).1 = gEx :=
  ⟨by decide,
    create_link_error_leaves_graph_unchanged gEx 0 1 3
      GraphError.DuplicateEdge (by decide)⟩
